import Mathlib

/-!
# Formal model of the `rvoss` pink-noise generator

Shallow embedding of `src/lib.rs`, a Rust implementation of the
Voss-McCartney pink-noise algorithm.

Modelling conventions:

* `f32` values are idealized as exact rationals `ℚ`; the random draw made by
  `rand::random::<f32>()` inside `Noise::update` is passed in explicitly, so
  `Noise.update` takes the drawn uniform value `u` (the Rust code then maps it
  to `u * 2 - 1`).
* `u32` counters are `ℕ`.  The counter stays within `[1, 2^14]`, far below
  `2^32`, so no wrap-around modelling is needed beyond `trailing_zeros`,
  which on `u32` returns `32` for the input `0`; `trailingZeros` below uses
  32 fuel steps to reproduce exactly the `u32` behaviour.
* A Rust panic (a failed `assert!` or an out-of-bounds array access) is
  modelled as `none`; the `Option` layer threads through `Pink.update` and
  `Pink.run`.
-/

/-- The Rust `const GENERATORS: usize = 15;`. -/
def GENERATORS : ℕ := 15

/-- Trailing-zero count computed with explicit fuel, one bit per step. -/
def tzFuel : ℕ → ℕ → ℕ
  | 0, _ => 0
  | f + 1, n => if n % 2 = 1 then 0 else tzFuel f (n / 2) + 1

/-- `u32::trailing_zeros`: 32 fuel steps, so `trailingZeros 0 = 32`, and for
`0 < n < 2^32` it is the exponent of 2 in `n`. -/
def trailingZeros (n : ℕ) : ℕ := tzFuel 32 n

/-- The Rust `struct Noise { value: f32 }`. -/
structure Noise where
  value : ℚ
deriving Repr

/-- `Noise::new`. -/
def Noise.new : Noise := { value := 0 }

/-- `Noise::update`: the drawn uniform value `u` (Rust: `random::<f32>()`,
uniform on [0,1)) is passed explicitly; the stored value becomes
`u * 2 - 1`. -/
def Noise.update (_n : Noise) (u : ℚ) : Noise := { value := u * 2 - 1 }

/-- The Rust `struct Pink`. -/
structure Pink where
  noise : Fin GENERATORS → Noise
  white : Noise
  pink : ℚ
  counter : ℕ
  generators : ℕ
  rollover : ℕ

/-- `Pink::new`. -/
def Pink.new : Pink where
  noise := fun _ => Noise.new
  white := Noise.new
  pink := 0
  counter := 1
  generators := GENERATORS
  rollover := 2 ^ (GENERATORS - 1)

/-- `Pink::get_noise_index`: asserts `counter > 0` and `counter <= rollover`
(panic = `none`), then returns `counter.trailing_zeros()`. -/
def Pink.get_noise_index (p : Pink) : Option ℕ :=
  if 0 < p.counter ∧ p.counter ≤ p.rollover then some (trailingZeros p.counter)
  else none

/-- `Pink::increment_counter`: asserts the same counter bounds, then sets
`counter = (counter & (rollover - 1)) + 1`. -/
def Pink.increment_counter (p : Pink) : Option Pink :=
  if 0 < p.counter ∧ p.counter ≤ p.rollover then
    some { p with counter := (p.counter &&& (p.rollover - 1)) + 1 }
  else none

/-- `Pink::update`: one Voss-McCartney step.  `u1` is the uniform value drawn
when refreshing the selected generator, `u2` the one drawn when refreshing
`white`.  Returns the updated state together with the returned sample
`pink / (generators + 1)`; `none` models a panic (failed assertion or
out-of-bounds index). -/
def Pink.update (p : Pink) (u1 u2 : ℚ) : Option (Pink × ℚ) :=
  p.get_noise_index.bind fun index =>
    if hidx : index < p.generators ∧ index < GENERATORS then
      let i : Fin GENERATORS := ⟨index, hidx.2⟩
      let pink1 := p.pink - (p.noise i).value
      let noise1 := Function.update p.noise i ((p.noise i).update u1)
      let pink2 := pink1 + (noise1 i).value
      let pink3 := pink2 - p.white.value
      let white1 := p.white.update u2
      let pink4 := pink3 + white1.value
      let q : Pink := { p with noise := noise1, white := white1, pink := pink4 }
      q.increment_counter.map fun q1 => (q1, q1.pink / ((q1.generators : ℚ) + 1))
    else none

/-- `n` iterated calls of `Pink::update`, driven by the stream `us` of random
draws (`us k` holds the two values drawn during call number `k`). -/
def Pink.run (p : Pink) (us : ℕ → ℚ × ℚ) : ℕ → Option Pink
  | 0 => some p
  | n + 1 =>
    match Pink.run p us n with
    | none => none
    | some q =>
      match q.update (us n).1 (us n).2 with
      | none => none
      | some r => some r.1

/-- The index selected at step `n` of a run from the freshly constructed
state (the Rust test `index_distribution` reads it the same way, calling
`get_noise_index` on the state before call number `n`). -/
def idxAt (us : ℕ → ℚ × ℚ) (n : ℕ) : Option ℕ :=
  (Pink.run Pink.new us n).bind Pink.get_noise_index

/-- The sample returned by call number `n` of `Pink::update` on a run from
the freshly constructed state. -/
def valAt (us : ℕ → ℚ × ℚ) (n : ℕ) : Option ℚ :=
  (Pink.run Pink.new us n).bind fun p => (p.update (us n).1 (us n).2).map Prod.snd

/-- How often index `i` is selected over one full rollover period of counter
values `1, …, 2^(GENERATORS-1)`. -/
def selCount (i : ℕ) : ℕ :=
  ((Finset.Icc 1 (2 ^ (GENERATORS - 1))).filter
    (fun c => Pink.get_noise_index { Pink.new with counter := c } = some i)).card

/-- Counting helper: how often `trailingZeros` takes the value `i` on
`1, …, n`. -/
def tzCount (n i : ℕ) : ℕ :=
  ((Finset.Icc 1 n).filter (fun c => trailingZeros c = i)).card

/-- A stream of zero draws, used to instantiate run-based statements. -/
def zeroDraws : ℕ → ℚ × ℚ := fun _ => (0, 0)

section TrailingZeros

lemma tzFuel_zero : ∀ f, tzFuel f 0 = f := by
  intro f
  induction f with
  | zero => rfl
  | succ f ih => simp [tzFuel, ih]

lemma tzFuel_pow_mul_odd : ∀ i f k, i < f → tzFuel f (2 ^ i * (2 * k + 1)) = i := by
  intro i
  induction i with
  | zero =>
    intro f k hf
    obtain ⟨f', rfl⟩ := Nat.exists_eq_succ_of_ne_zero (Nat.pos_iff_ne_zero.mp hf)
    simp [tzFuel, Nat.mul_mod_right, Nat.add_mod]
  | succ i ih =>
    intro f k hf
    obtain ⟨f', rfl⟩ := Nat.exists_eq_succ_of_ne_zero (Nat.pos_iff_ne_zero.mp (Nat.lt_of_le_of_lt (Nat.zero_le _) hf))
    have heven : (2 ^ (i + 1) * (2 * k + 1)) % 2 = 0 := by
      have : 2 ∣ 2 ^ (i + 1) * (2 * k + 1) :=
        Dvd.dvd.mul_right (dvd_pow_self 2 (Nat.succ_ne_zero i)) _
      omega
    have hdiv : 2 ^ (i + 1) * (2 * k + 1) / 2 = 2 ^ i * (2 * k + 1) := by
      rw [pow_succ]
      rw [show 2 ^ i * 2 * (2 * k + 1) = 2 ^ i * (2 * k + 1) * 2 by ring]
      exact Nat.mul_div_cancel _ (by norm_num)
    simp only [tzFuel, heven, hdiv, ih f' k (Nat.lt_of_succ_lt_succ hf)]
    norm_num

lemma exists_tz_decomp : ∀ c : ℕ, 0 < c → ∃ i k, c = 2 ^ i * (2 * k + 1) := by
  intro c
  induction c using Nat.strong_induction_on with
  | _ c ih =>
    intro hc
    rcases Nat.even_or_odd c with he | ho
    · obtain ⟨d, hd⟩ := he
      have hd2 : c = 2 * d := by omega
      have hdpos : 0 < d := by omega
      obtain ⟨i, k, hik⟩ := ih d (by omega) hdpos
      refine ⟨i + 1, k, ?_⟩
      rw [hd2, hik, pow_succ]
      ring
    · obtain ⟨k, hk⟩ := ho
      exact ⟨0, k, by rw [hk]; ring⟩

lemma pow_dvd_pow_mul_odd {j i k : ℕ} : 2 ^ j ∣ 2 ^ i * (2 * k + 1) ↔ j ≤ i := by
  constructor
  · intro h
    by_contra hlt
    push_neg at hlt
    have h2 : 2 ^ i * 2 ∣ 2 ^ i * (2 * k + 1) := by
      calc 2 ^ i * 2 = 2 ^ (i + 1) := (pow_succ 2 i).symm
        _ ∣ 2 ^ j := pow_dvd_pow 2 hlt
        _ ∣ 2 ^ i * (2 * k + 1) := h
    have h3 : 2 ∣ 2 * k + 1 :=
      (mul_dvd_mul_iff_left (a := 2 ^ i) (by positivity)).mp h2
    omega
  · intro h
    exact dvd_mul_of_dvd_left (pow_dvd_pow 2 h) _

lemma trailingZeros_pow_mul_odd {i k : ℕ} (hi : i < 32) :
    trailingZeros (2 ^ i * (2 * k + 1)) = i :=
  tzFuel_pow_mul_odd i 32 k hi

lemma trailingZeros_eq_iff {c i : ℕ} (hc : 0 < c) (hlt : c < 2 ^ 32) :
    trailingZeros c = i ↔ 2 ^ i ∣ c ∧ ¬ 2 ^ (i + 1) ∣ c := by
  obtain ⟨j, k, rfl⟩ := exists_tz_decomp c hc
  have hj32 : j < 32 := by
    by_contra hge
    push_neg at hge
    have h1 : 2 ^ 32 ≤ 2 ^ j := Nat.pow_le_pow_right (by norm_num) hge
    have h2 : 2 ^ j ≤ 2 ^ j * (2 * k + 1) := Nat.le_mul_of_pos_right _ (by omega)
    omega
  rw [trailingZeros_pow_mul_odd hj32]
  constructor
  · rintro rfl
    refine ⟨pow_dvd_pow_mul_odd.mpr le_rfl, fun h => ?_⟩
    exact absurd (pow_dvd_pow_mul_odd.mp h) (by omega)
  · rintro ⟨h1, h2⟩
    have hji : i ≤ j := pow_dvd_pow_mul_odd.mp h1
    by_contra hne
    exact h2 (pow_dvd_pow_mul_odd.mpr (by omega))

lemma trailingZeros_le_of_le_pow {c m : ℕ} (hc : 0 < c) (hm : m < 32)
    (hle : c ≤ 2 ^ m) : trailingZeros c ≤ m := by
  have hlt : c < 2 ^ 32 := lt_of_le_of_lt hle (Nat.pow_lt_pow_right (by norm_num) hm)
  have hdvd : 2 ^ trailingZeros c ∣ c :=
    ((trailingZeros_eq_iff hc hlt).mp rfl).1
  have h1 : 2 ^ trailingZeros c ≤ c := Nat.le_of_dvd hc hdvd
  by_contra hgt
  push_neg at hgt
  have h2 : 2 ^ m < 2 ^ trailingZeros c := Nat.pow_lt_pow_right (by norm_num) hgt
  omega

end TrailingZeros

section Counting

lemma tzCount_pow_div (m i : ℕ) (hm : m < 32) :
    tzCount (2 ^ m) i = 2 ^ m / 2 ^ i - 2 ^ m / 2 ^ (i + 1) := by
  unfold tzCount
  rw [show (1 : ℕ) = 0 + 1 from rfl, Nat.Icc_succ_left 0 (2 ^ m)]
  have hset : (Finset.Ioc 0 (2 ^ m)).filter (fun c => trailingZeros c = i)
      = (Finset.Ioc 0 (2 ^ m)).filter (fun c => 2 ^ i ∣ c) \
        (Finset.Ioc 0 (2 ^ m)).filter (fun c => 2 ^ (i + 1) ∣ c) := by
    ext c
    simp only [Finset.mem_filter, Finset.mem_sdiff, Finset.mem_Ioc]
    constructor
    · rintro ⟨⟨hc0, hcm⟩, htz⟩
      have hlt : c < 2 ^ 32 :=
        lt_of_le_of_lt hcm (Nat.pow_lt_pow_right (by norm_num) hm)
      have h := (trailingZeros_eq_iff hc0 hlt).mp htz
      exact ⟨⟨⟨hc0, hcm⟩, h.1⟩, fun hmem => h.2 hmem.2⟩
    · rintro ⟨⟨⟨hc0, hcm⟩, h1⟩, h2⟩
      have hlt : c < 2 ^ 32 :=
        lt_of_le_of_lt hcm (Nat.pow_lt_pow_right (by norm_num) hm)
      have h2' : ¬ 2 ^ (i + 1) ∣ c := fun hd => h2 ⟨⟨hc0, hcm⟩, hd⟩
      exact ⟨⟨hc0, hcm⟩, (trailingZeros_eq_iff hc0 hlt).mpr ⟨h1, h2'⟩⟩
  have hsub : (Finset.Ioc 0 (2 ^ m)).filter (fun c => 2 ^ (i + 1) ∣ c) ⊆
      (Finset.Ioc 0 (2 ^ m)).filter (fun c => 2 ^ i ∣ c) :=
    Finset.monotone_filter_right _
      (fun c hc => dvd_trans (pow_dvd_pow 2 (Nat.le_succ i)) hc)
  rw [hset, Finset.card_sdiff hsub,
    Nat.Ioc_filter_dvd_card_eq_div (2 ^ m) (2 ^ i),
    Nat.Ioc_filter_dvd_card_eq_div (2 ^ m) (2 ^ (i + 1))]

lemma tzCount_pow_of_lt {m i : ℕ} (hm : m < 32) (hi : i < m) :
    tzCount (2 ^ m) i = 2 ^ m / 2 ^ (i + 1) := by
  rw [tzCount_pow_div m i hm,
    Nat.pow_div (by omega) (by norm_num),
    Nat.pow_div (by omega) (by norm_num)]
  obtain ⟨t, ht⟩ : ∃ t, m - i = t + 1 := ⟨m - i - 1, by omega⟩
  rw [show m - (i + 1) = t by omega, ht, pow_succ]
  omega

lemma tzCount_pow_self (m : ℕ) (hm : m < 32) : tzCount (2 ^ m) m = 1 := by
  rw [tzCount_pow_div m m hm, Nat.div_self (by positivity),
    Nat.div_eq_of_lt (Nat.pow_lt_pow_right (by norm_num) (Nat.lt_succ_self m))]

lemma selCount_eq_tzCount (i : ℕ) : selCount i = tzCount (2 ^ (GENERATORS - 1)) i := by
  unfold selCount tzCount
  congr 1
  ext c
  simp only [Finset.mem_filter, Finset.mem_Icc]
  constructor
  · rintro ⟨⟨hc1, hc2⟩, hsel⟩
    refine ⟨⟨hc1, hc2⟩, ?_⟩
    have hgni : Pink.get_noise_index { Pink.new with counter := c }
        = some (trailingZeros c) := by
      unfold Pink.get_noise_index
      rw [if_pos]
      exact ⟨show 0 < c by omega, show c ≤ 2 ^ (GENERATORS - 1) from hc2⟩
    rw [hgni] at hsel
    exact Option.some_injective _ hsel
  · rintro ⟨⟨hc1, hc2⟩, htz⟩
    refine ⟨⟨hc1, hc2⟩, ?_⟩
    unfold Pink.get_noise_index
    rw [if_pos]
    · exact congrArg some htz
    · exact ⟨show 0 < c by omega, show c ≤ 2 ^ (GENERATORS - 1) from hc2⟩

end Counting

section UpdateSpec

lemma land_two_pow_sub_one (c k : ℕ) : c &&& (2 ^ k - 1) = c % 2 ^ k := by
  apply Nat.eq_of_testBit_eq
  intro j
  rw [Nat.testBit_land, Nat.testBit_two_pow_sub_one, Nat.testBit_mod_two_pow]
  exact Bool.and_comm _ _

lemma update_eq_some (p : Pink) (u1 u2 : ℚ)
    (h0 : 0 < p.counter) (h1 : p.counter ≤ p.rollover)
    (hg : trailingZeros p.counter < p.generators)
    (hG : trailingZeros p.counter < GENERATORS) :
    p.update u1 u2 = some
      ({ p with
          noise := Function.update p.noise ⟨trailingZeros p.counter, hG⟩
            { value := u1 * 2 - 1 },
          white := { value := u2 * 2 - 1 },
          pink := p.pink - (p.noise ⟨trailingZeros p.counter, hG⟩).value + (u1 * 2 - 1)
                  - p.white.value + (u2 * 2 - 1),
          counter := (p.counter &&& (p.rollover - 1)) + 1 },
        (p.pink - (p.noise ⟨trailingZeros p.counter, hG⟩).value + (u1 * 2 - 1)
            - p.white.value + (u2 * 2 - 1)) / ((p.generators : ℚ) + 1)) := by
  unfold Pink.update Pink.get_noise_index Pink.increment_counter
  rw [if_pos ⟨h0, h1⟩]
  show (if hidx : trailingZeros p.counter < p.generators ∧
      trailingZeros p.counter < GENERATORS then _ else none) = _
  rw [dif_pos ⟨hg, hG⟩]
  simp only [Noise.update, Function.update_same]
  rw [if_pos ⟨h0, h1⟩]
  rfl

lemma update_eq_none (p : Pink) (u1 u2 : ℚ)
    (h : ¬(0 < p.counter ∧ p.counter ≤ p.rollover) ∨
      ¬(trailingZeros p.counter < p.generators ∧ trailingZeros p.counter < GENERATORS)) :
    p.update u1 u2 = none := by
  unfold Pink.update Pink.get_noise_index
  rcases h with h | h
  · rw [if_neg h]
    rfl
  · by_cases hc : 0 < p.counter ∧ p.counter ≤ p.rollover
    · rw [if_pos hc]
      show (if hidx : trailingZeros p.counter < p.generators ∧
          trailingZeros p.counter < GENERATORS then _ else none) = _
      rw [dif_neg h]
    · rw [if_neg hc]
      rfl

end UpdateSpec

section RunInvariants

lemma tz_lt_generators {c : ℕ} (h0 : 0 < c) (h1 : c ≤ 2 ^ (GENERATORS - 1)) :
    trailingZeros c < GENERATORS := by
  have h := trailingZeros_le_of_le_pow h0 (by norm_num [GENERATORS]) h1
  have hG : GENERATORS = 15 := rfl
  omega

lemma run_inv (us : ℕ → ℚ × ℚ) :
    ∀ n, ∃ p, Pink.run Pink.new us n = some p ∧
      p.generators = GENERATORS ∧ p.rollover = 2 ^ (GENERATORS - 1) ∧
      p.counter = n % 2 ^ (GENERATORS - 1) + 1 ∧
      p.pink = (∑ j, (p.noise j).value) + p.white.value := by
  intro n
  induction n with
  | zero =>
    refine ⟨Pink.new, rfl, rfl, rfl, by simp [Pink.new], ?_⟩
    simp [Pink.new, Noise.new]
  | succ n ih =>
    obtain ⟨p, hrun, hg, hr, hc, hsum⟩ := ih
    have hmod : n % 2 ^ (GENERATORS - 1) < 2 ^ (GENERATORS - 1) :=
      Nat.mod_lt _ (by positivity)
    have h0 : 0 < p.counter := by omega
    have h1 : p.counter ≤ p.rollover := by rw [hr]; omega
    have hG : trailingZeros p.counter < GENERATORS := tz_lt_generators h0 (hr ▸ h1)
    have hg' : trailingZeros p.counter < p.generators := by rw [hg]; exact hG
    have heq := update_eq_some p (us n).1 (us n).2 h0 h1 hg' hG
    refine ⟨{ p with
        noise := Function.update p.noise ⟨trailingZeros p.counter, hG⟩
          { value := (us n).1 * 2 - 1 },
        white := { value := (us n).2 * 2 - 1 },
        pink := p.pink - (p.noise ⟨trailingZeros p.counter, hG⟩).value
                + ((us n).1 * 2 - 1) - p.white.value + ((us n).2 * 2 - 1),
        counter := (p.counter &&& (p.rollover - 1)) + 1 },
      ?_, hg, hr, ?_, ?_⟩
    · simp only [Pink.run, hrun, heq]
    · show (p.counter &&& (p.rollover - 1)) + 1 = (n + 1) % 2 ^ (GENERATORS - 1) + 1
      rw [hr, land_two_pow_sub_one, hc]
      rw [show (2 : ℕ) ^ (GENERATORS - 1) = 16384 by norm_num [GENERATORS]]
      omega
    · show p.pink - (p.noise ⟨trailingZeros p.counter, hG⟩).value
          + ((us n).1 * 2 - 1) - p.white.value + ((us n).2 * 2 - 1)
        = (∑ j, ((Function.update p.noise ⟨trailingZeros p.counter, hG⟩
            { value := (us n).1 * 2 - 1 }) j).value) + ((us n).2 * 2 - 1)
      have hplug : ∀ j, ((Function.update p.noise ⟨trailingZeros p.counter, hG⟩
          { value := (us n).1 * 2 - 1 }) j).value
          = Function.update (fun k => (p.noise k).value)
              ⟨trailingZeros p.counter, hG⟩ ((us n).1 * 2 - 1) j :=
        fun j => Function.apply_update (fun _ nn => nn.value) p.noise _ _ j
      simp only [hplug]
      rw [Finset.sum_update_of_mem (Finset.mem_univ _),
        Finset.sdiff_singleton_eq_erase,
        Finset.sum_erase_eq_sub (Finset.mem_univ _), hsum]
      ring

lemma run_range (us : ℕ → ℚ × ℚ)
    (hus : ∀ k, 0 ≤ (us k).1 ∧ (us k).1 < 1 ∧ 0 ≤ (us k).2 ∧ (us k).2 < 1) :
    ∀ n p, Pink.run Pink.new us n = some p →
      (∀ j, -1 ≤ (p.noise j).value ∧ (p.noise j).value < 1) ∧
      -1 ≤ p.white.value ∧ p.white.value < 1 := by
  intro n
  induction n with
  | zero =>
    intro p hp
    have hp' : Pink.new = p := Option.some_injective _ hp
    subst hp'
    refine ⟨fun j => ?_, ?_, ?_⟩ <;> norm_num [Pink.new, Noise.new]
  | succ n ih =>
    intro p hp
    obtain ⟨q, hq, hg, hr, hc, _⟩ := run_inv us n
    have hmod : n % 2 ^ (GENERATORS - 1) < 2 ^ (GENERATORS - 1) :=
      Nat.mod_lt _ (by positivity)
    have h0 : 0 < q.counter := by omega
    have h1 : q.counter ≤ q.rollover := by rw [hr]; omega
    have hG : trailingZeros q.counter < GENERATORS := tz_lt_generators h0 (hr ▸ h1)
    have hg' : trailingZeros q.counter < q.generators := by rw [hg]; exact hG
    have heq := update_eq_some q (us n).1 (us n).2 h0 h1 hg' hG
    simp only [Pink.run, hq, heq] at hp
    have hp' : _ = p := Option.some_injective _ hp
    subst hp'
    dsimp only
    obtain ⟨hq1, hq2⟩ := ih q hq
    obtain ⟨hu1, hu2, hu3, hu4⟩ := hus n
    refine ⟨fun j => ?_, ?_, ?_⟩
    · by_cases hji : j = ⟨trailingZeros q.counter, hG⟩
      · subst hji
        rw [Function.update_same]
        show -1 ≤ (us n).1 * 2 - 1 ∧ (us n).1 * 2 - 1 < 1
        constructor <;> linarith
      · rw [Function.update_noteq hji]
        exact hq1 j
    · show -1 ≤ (us n).2 * 2 - 1
      linarith
    · show (us n).2 * 2 - 1 < 1
      linarith

end RunInvariants

section ControlFlow

/-- The control part of the state: everything the index-selection logic and the
assertion checks can observe (`counter`, `generators`, `rollover`). -/
def ctrlOf (p : Pink) : ℕ × ℕ × ℕ := (p.counter, p.generators, p.rollover)

lemma ctrlOf_fields {p q : Pink} (h : ctrlOf p = ctrlOf q) :
    p.counter = q.counter ∧ p.generators = q.generators ∧ p.rollover = q.rollover := by
  simpa [ctrlOf, Prod.ext_iff] using h

lemma gni_ctrl {p q : Pink} (h : ctrlOf p = ctrlOf q) :
    p.get_noise_index = q.get_noise_index := by
  obtain ⟨h1, h2, h3⟩ := ctrlOf_fields h
  unfold Pink.get_noise_index
  rw [h1, h3]

lemma update_ctrl {p q : Pink} (h : ctrlOf p = ctrlOf q) (u1 u2 w1 w2 : ℚ) :
    (p.update u1 u2).map (fun r => ctrlOf r.1)
      = (q.update w1 w2).map (fun r => ctrlOf r.1) := by
  obtain ⟨h1, h2, h3⟩ := ctrlOf_fields h
  by_cases hb : 0 < p.counter ∧ p.counter ≤ p.rollover
  · by_cases hi : trailingZeros p.counter < p.generators ∧
        trailingZeros p.counter < GENERATORS
    · rw [update_eq_some p u1 u2 hb.1 hb.2 hi.1 hi.2,
        update_eq_some q w1 w2 (by rw [← h1]; exact hb.1)
          (by rw [← h1, ← h3]; exact hb.2)
          (by rw [← h1, ← h2]; exact hi.1) (by rw [← h1]; exact hi.2)]
      simp [ctrlOf, h1, h2, h3]
    · rw [update_eq_none p u1 u2 (Or.inr hi),
        update_eq_none q w1 w2 (Or.inr (by rw [← h1, ← h2]; exact hi))]
  · rw [update_eq_none p u1 u2 (Or.inl hb),
      update_eq_none q w1 w2 (Or.inl (by rw [← h1, ← h3]; exact hb))]

lemma run_ctrl {p q : Pink} (h : ctrlOf p = ctrlOf q) (us vs : ℕ → ℚ × ℚ) :
    ∀ n, (Pink.run p us n).map ctrlOf = (Pink.run q vs n).map ctrlOf := by
  intro n
  induction n with
  | zero => simpa [Pink.run] using h
  | succ n ih =>
    cases hp : Pink.run p us n with
    | none =>
      cases hq : Pink.run q vs n with
      | none => simp [Pink.run, hp, hq]
      | some q' => rw [hp, hq] at ih; simp at ih
    | some p' =>
      cases hq : Pink.run q vs n with
      | none => rw [hp, hq] at ih; simp at ih
      | some q' =>
        rw [hp, hq] at ih
        simp only [Option.map_some'] at ih
        have ih' : ctrlOf p' = ctrlOf q' := Option.some_injective _ ih
        have hu := update_ctrl ih' (us n).1 (us n).2 (vs n).1 (vs n).2
        cases hup : p'.update (us n).1 (us n).2 with
        | none =>
          cases huq : q'.update (vs n).1 (vs n).2 with
          | none => simp [Pink.run, hp, hq, hup, huq]
          | some r => rw [hup, huq] at hu; simp at hu
        | some r =>
          cases huq : q'.update (vs n).1 (vs n).2 with
          | none => rw [hup, huq] at hu; simp at hu
          | some r' =>
            rw [hup, huq] at hu
            simp only [Option.map_some'] at hu
            have hr : ctrlOf r.1 = ctrlOf r'.1 := Option.some_injective _ hu
            simp only [Pink.run, hp, hq, hup, huq]
            simp only [Option.map_some']
            exact congrArg some hr

end ControlFlow

section IndexSchedule

lemma idxAt_eq (us : ℕ → ℚ × ℚ) (n : ℕ) :
    idxAt us n = some (trailingZeros (n % 2 ^ (GENERATORS - 1) + 1)) := by
  obtain ⟨p, hrun, hg, hr, hc, _⟩ := run_inv us n
  have hmod : n % 2 ^ (GENERATORS - 1) < 2 ^ (GENERATORS - 1) :=
    Nat.mod_lt _ (by positivity)
  unfold idxAt
  rw [hrun]
  show p.get_noise_index = _
  unfold Pink.get_noise_index
  rw [if_pos ⟨by omega, by rw [hr]; omega⟩, hc]

lemma idx_count_eq_tzCount (us : ℕ → ℚ × ℚ) (i : ℕ) :
    ((Finset.range (2 ^ (GENERATORS - 1))).filter (fun n => idxAt us n = some i)).card
      = tzCount (2 ^ (GENERATORS - 1)) i := by
  unfold tzCount
  apply Finset.card_bij (fun n _ => n + 1)
  · intro n hn
    simp only [Finset.mem_filter, Finset.mem_range] at hn
    obtain ⟨hn1, hn2⟩ := hn
    rw [idxAt_eq, Nat.mod_eq_of_lt hn1] at hn2
    simp only [Finset.mem_filter, Finset.mem_Icc]
    exact ⟨⟨by omega, by omega⟩, Option.some_injective _ hn2⟩
  · intro a ha b hb hab
    omega
  · intro c hc
    simp only [Finset.mem_filter, Finset.mem_Icc] at hc
    obtain ⟨⟨hc1, hc2⟩, htz⟩ := hc
    refine ⟨c - 1, ?_, by omega⟩
    simp only [Finset.mem_filter, Finset.mem_range]
    refine ⟨by omega, ?_⟩
    rw [idxAt_eq, Nat.mod_eq_of_lt (by omega), show c - 1 + 1 = c by omega, htz]

end IndexSchedule

/-- C1: over one full period of `rollover = 2^(GENERATORS-1)` consecutive
counter values starting at `counter = 1`, the index returned by
`get_noise_index` (the trailing-zero count of the counter) equals `i` exactly
`rollover / 2^(i+1)` times for every `i < GENERATORS - 1`, and equals
`GENERATORS - 1` exactly once. -/
theorem C1_index_distribution :
    (∀ i, i < GENERATORS - 1 →
      selCount i = 2 ^ (GENERATORS - 1) / 2 ^ (i + 1)) ∧
    selCount (GENERATORS - 1) = 1 := by
  constructor
  · intro i hi
    rw [selCount_eq_tzCount, tzCount_pow_of_lt (by norm_num [GENERATORS]) hi]
  · rw [selCount_eq_tzCount, tzCount_pow_self _ (by norm_num [GENERATORS])]

/-- Witness for C1, instantiated at index 0. -/
theorem C1_index_distribution_witness :
    0 < GENERATORS - 1 ∧ selCount 0 = 2 ^ (GENERATORS - 1) / 2 ^ (0 + 1) :=
  ⟨by norm_num [GENERATORS], C1_index_distribution.1 0 (by norm_num [GENERATORS])⟩

/-- C2 counterexample: with the all-zero draw stream, over one full cycle of
`2^14 = 16384` calls starting from the freshly constructed state, index 13 is
selected exactly once — not the 2 times the claim states. -/
theorem C2_counterexample :
    ((Finset.range (2 ^ (GENERATORS - 1))).filter
      (fun n => idxAt zeroDraws n = some 13)).card ≠ 2 := by
  rw [idx_count_eq_tzCount,
    tzCount_pow_of_lt (by norm_num [GENERATORS]) (by norm_num [GENERATORS])]
  norm_num [GENERATORS]

/-- C2 (amended): for `GENERATORS = 15`, over one full cycle of 16384 calls
from the fresh state, index `i < 14` is selected `16384 / 2^(i+1)` times
(8192 for index 0, 4096 for index 1, halving down to 1 at index 13), and
index 14 is selected once. -/
theorem C2_cycle_counts (us : ℕ → ℚ × ℚ) :
    (∀ i, i < GENERATORS - 1 →
      ((Finset.range (2 ^ (GENERATORS - 1))).filter
        (fun n => idxAt us n = some i)).card = 2 ^ (GENERATORS - 1) / 2 ^ (i + 1)) ∧
    ((Finset.range (2 ^ (GENERATORS - 1))).filter
      (fun n => idxAt us n = some 0)).card = 8192 ∧
    ((Finset.range (2 ^ (GENERATORS - 1))).filter
      (fun n => idxAt us n = some 13)).card = 1 ∧
    ((Finset.range (2 ^ (GENERATORS - 1))).filter
      (fun n => idxAt us n = some (GENERATORS - 1))).card = 1 := by
  have hforall : ∀ i, i < GENERATORS - 1 →
      ((Finset.range (2 ^ (GENERATORS - 1))).filter
        (fun n => idxAt us n = some i)).card = 2 ^ (GENERATORS - 1) / 2 ^ (i + 1) := by
    intro i hi
    rw [idx_count_eq_tzCount, tzCount_pow_of_lt (by norm_num [GENERATORS]) hi]
  refine ⟨hforall, ?_, ?_, ?_⟩
  · rw [hforall 0 (by norm_num [GENERATORS])]
    norm_num [GENERATORS]
  · rw [hforall 13 (by norm_num [GENERATORS])]
    norm_num [GENERATORS]
  · rw [idx_count_eq_tzCount, tzCount_pow_self _ (by norm_num [GENERATORS])]

/-- Witness for the amended C2, instantiated at index 1. -/
theorem C2_cycle_counts_witness :
    1 < GENERATORS - 1 ∧
    ((Finset.range (2 ^ (GENERATORS - 1))).filter
      (fun n => idxAt zeroDraws n = some 1)).card = 2 ^ (GENERATORS - 1) / 2 ^ (1 + 1) :=
  ⟨by norm_num [GENERATORS],
   (C2_cycle_counts zeroDraws).1 1 (by norm_num [GENERATORS])⟩

/-- C3: in every state reachable from construction by `update` calls, the
accumulator `pink` equals the sum of the current values of all generators plus
the white companion's value (it is maintained purely by the subtract-old /
add-new deltas visible in `Pink.update`). -/
theorem C3_running_sum (us : ℕ → ℚ × ℚ) (n : ℕ) (p : Pink)
    (h : Pink.run Pink.new us n = some p) :
    p.pink = (∑ j, (p.noise j).value) + p.white.value := by
  obtain ⟨q, hq, _, _, _, hsum⟩ := run_inv us n
  rw [h] at hq
  have hpq : p = q := Option.some_injective _ hq
  rw [hpq]
  exact hsum

/-- Witness for C3 at the freshly constructed state. -/
theorem C3_running_sum_witness :
    Pink.run Pink.new zeroDraws 0 = some Pink.new ∧
    Pink.new.pink = (∑ j, (Pink.new.noise j).value) + Pink.new.white.value :=
  ⟨rfl, C3_running_sum zeroDraws 0 Pink.new rfl⟩

lemma sum_erase_bounds (g : Fin GENERATORS → ℚ) (i : Fin GENERATORS)
    (h : ∀ j, -1 ≤ g j ∧ g j < 1) :
    (-14 : ℚ) ≤ (∑ j ∈ Finset.univ.erase i, g j) ∧
    (∑ j ∈ Finset.univ.erase i, g j) ≤ 14 := by
  have hcard : (Finset.univ.erase i).card = 14 := by
    rw [Finset.card_erase_of_mem (Finset.mem_univ _), Finset.card_univ]
    norm_num [GENERATORS]
  constructor
  · calc (-14 : ℚ) = ∑ _j ∈ Finset.univ.erase i, (-1 : ℚ) := by
          rw [Finset.sum_const, hcard]; norm_num
      _ ≤ ∑ j ∈ Finset.univ.erase i, g j :=
          Finset.sum_le_sum (fun j _ => (h j).1)
  · calc (∑ j ∈ Finset.univ.erase i, g j)
        ≤ ∑ _j ∈ Finset.univ.erase i, (1 : ℚ) :=
          Finset.sum_le_sum (fun j _ => le_of_lt (h j).2)
      _ = 14 := by rw [Finset.sum_const, hcard]; norm_num

/-- C4: provided every value drawn by a refresh lies in [-1, 1) (equivalently,
every uniform draw lies in [0, 1)), every sample returned by `update` along a
run from the fresh state — `pink` divided by `generators + 1` — lies in the
closed interval [-1, 1]. -/
theorem C4_output_bounded (us : ℕ → ℚ × ℚ)
    (hus : ∀ k, 0 ≤ (us k).1 ∧ (us k).1 < 1 ∧ 0 ≤ (us k).2 ∧ (us k).2 < 1)
    (n : ℕ) (v : ℚ) (hv : valAt us n = some v) :
    -1 ≤ v ∧ v ≤ 1 := by
  obtain ⟨p, hrun, hg, hr, hc, hsum⟩ := run_inv us n
  have hmod : n % 2 ^ (GENERATORS - 1) < 2 ^ (GENERATORS - 1) :=
    Nat.mod_lt _ (by positivity)
  have h0 : 0 < p.counter := by omega
  have h1 : p.counter ≤ p.rollover := by rw [hr]; omega
  have hG : trailingZeros p.counter < GENERATORS := tz_lt_generators h0 (hr ▸ h1)
  have hg' : trailingZeros p.counter < p.generators := by rw [hg]; exact hG
  have heq := update_eq_some p (us n).1 (us n).2 h0 h1 hg' hG
  unfold valAt at hv
  rw [hrun] at hv
  have hv' : (p.update (us n).1 (us n).2).map Prod.snd = some v := hv
  rw [heq] at hv'
  simp only [Option.map_some'] at hv'
  have hveq : (p.pink - (p.noise ⟨trailingZeros p.counter, hG⟩).value
      + ((us n).1 * 2 - 1) - p.white.value + ((us n).2 * 2 - 1))
        / ((p.generators : ℚ) + 1) = v := Option.some_injective _ hv'
  obtain ⟨hrange, hws⟩ := run_range us hus n p hrun
  obtain ⟨hu1, hu2, hu3, hu4⟩ := hus n
  have hsplit : (∑ j ∈ Finset.univ.erase ⟨trailingZeros p.counter, hG⟩,
      (p.noise j).value)
      = (∑ j, (p.noise j).value) - (p.noise ⟨trailingZeros p.counter, hG⟩).value :=
    Finset.sum_erase_eq_sub (Finset.mem_univ _)
  obtain ⟨hlb, hub⟩ := sum_erase_bounds (fun j => (p.noise j).value)
    ⟨trailingZeros p.counter, hG⟩ hrange
  have h16 : ((p.generators : ℚ) + 1) = 16 := by
    rw [hg]; norm_num [GENERATORS]
  have hnum : p.pink - (p.noise ⟨trailingZeros p.counter, hG⟩).value
      + ((us n).1 * 2 - 1) - p.white.value + ((us n).2 * 2 - 1)
      = (∑ j ∈ Finset.univ.erase ⟨trailingZeros p.counter, hG⟩, (p.noise j).value)
        + ((us n).1 * 2 - 1) + ((us n).2 * 2 - 1) := by
    rw [hsplit, hsum]
    ring
  rw [← hveq, h16, hnum]
  constructor
  · rw [le_div_iff (by norm_num : (0 : ℚ) < 16)]
    linarith
  · rw [div_le_one (by norm_num : (0 : ℚ) < 16)]
    linarith

/-- Witness for C4: the all-zero draw stream satisfies the range hypothesis and
the first returned sample is in bounds. -/
theorem C4_output_bounded_witness :
    (∀ k, 0 ≤ (zeroDraws k).1 ∧ (zeroDraws k).1 < 1 ∧
      0 ≤ (zeroDraws k).2 ∧ (zeroDraws k).2 < 1) ∧
    ∃ v, valAt zeroDraws 0 = some v ∧ -1 ≤ v ∧ v ≤ 1 := by
  have hus : ∀ k, 0 ≤ (zeroDraws k).1 ∧ (zeroDraws k).1 < 1 ∧
      0 ≤ (zeroDraws k).2 ∧ (zeroDraws k).2 < 1 := by
    intro k
    norm_num [zeroDraws]
  have heq := update_eq_some Pink.new 0 0 (by decide) (by decide) (by decide) (by decide)
  have hv : valAt zeroDraws 0 = some (-2 / 16) := by
    show (Pink.new.update 0 0).map Prod.snd = some (-2 / 16)
    rw [heq]
    simp only [Option.map_some']
    norm_num [Pink.new, Noise.new, GENERATORS]
  exact ⟨hus, -2 / 16, hv, C4_output_bounded zeroDraws hus 0 (-2 / 16) hv⟩

/-- C5: for every counter value in `[1, rollover]` the trailing-zero index is
strictly less than `GENERATORS`; on every reachable state `get_noise_index`
succeeds with an index below both `generators` (the asserted bound) and the
array length `GENERATORS`, so the array access is in bounds. -/
theorem C5_index_in_bounds :
    (∀ c, 1 ≤ c → c ≤ 2 ^ (GENERATORS - 1) → trailingZeros c < GENERATORS) ∧
    (∀ us n p, Pink.run Pink.new us n = some p →
      ∃ i, p.get_noise_index = some i ∧ i < p.generators ∧ i < GENERATORS) := by
  constructor
  · intro c h1 h2
    exact tz_lt_generators (by omega) h2
  · intro us n p h
    obtain ⟨q, hq, hg, hr, hc, _⟩ := run_inv us n
    rw [h] at hq
    have hpq : p = q := Option.some_injective _ hq
    subst hpq
    have hmod : n % 2 ^ (GENERATORS - 1) < 2 ^ (GENERATORS - 1) :=
      Nat.mod_lt _ (by positivity)
    have h0 : 0 < p.counter := by omega
    have h1 : p.counter ≤ p.rollover := by rw [hr]; omega
    have hG : trailingZeros p.counter < GENERATORS := tz_lt_generators h0 (hr ▸ h1)
    refine ⟨trailingZeros p.counter, ?_, ?_, hG⟩
    · unfold Pink.get_noise_index
      rw [if_pos ⟨h0, h1⟩]
    · rw [hg]
      exact hG

/-- Witness for C5: counter value 4 and the freshly constructed state. -/
theorem C5_index_in_bounds_witness :
    (1 ≤ 4 ∧ 4 ≤ 2 ^ (GENERATORS - 1) ∧ trailingZeros 4 < GENERATORS) ∧
    (Pink.run Pink.new zeroDraws 0 = some Pink.new ∧
      ∃ i, Pink.new.get_noise_index = some i ∧ i < Pink.new.generators ∧
        i < GENERATORS) :=
  ⟨⟨by norm_num, by norm_num [GENERATORS],
    C5_index_in_bounds.1 4 (by norm_num) (by norm_num [GENERATORS])⟩,
   rfl, C5_index_in_bounds.2 zeroDraws 0 Pink.new rfl⟩

/-- C6: `1 ≤ counter ≤ rollover` holds in the freshly constructed state and in
every state reachable by `update` calls — no run ever panics, and on every
reachable state both assertion-guarded operations (`get_noise_index` and
`increment_counter`) succeed. -/
theorem C6_counter_invariant (us : ℕ → ℚ × ℚ) (n : ℕ) :
    ∃ p, Pink.run Pink.new us n = some p ∧
      1 ≤ p.counter ∧ p.counter ≤ p.rollover ∧
      p.get_noise_index.isSome = true ∧ p.increment_counter.isSome = true := by
  obtain ⟨p, hrun, hg, hr, hc, _⟩ := run_inv us n
  have hmod : n % 2 ^ (GENERATORS - 1) < 2 ^ (GENERATORS - 1) :=
    Nat.mod_lt _ (by positivity)
  have h0 : 0 < p.counter := by omega
  have h1 : p.counter ≤ p.rollover := by rw [hr]; omega
  refine ⟨p, hrun, h0, h1, ?_, ?_⟩
  · unfold Pink.get_noise_index
    rw [if_pos ⟨h0, h1⟩]
    rfl
  · unfold Pink.increment_counter
    rw [if_pos ⟨h0, h1⟩]
    rfl

/-- C7: `increment_counter` computes `(counter & (rollover - 1)) + 1`; from
`1 ≤ counter < rollover` it yields `counter + 1`, from `counter = rollover`
it yields 1, and it preserves `1 ≤ counter ≤ rollover`. -/
theorem C7_increment_wraps (p : Pink) (hr : p.rollover = 2 ^ (GENERATORS - 1)) :
    (1 ≤ p.counter → p.counter < p.rollover →
      p.increment_counter = some { p with counter := p.counter + 1 }) ∧
    (p.counter = p.rollover →
      p.increment_counter = some { p with counter := 1 }) ∧
    (1 ≤ p.counter → p.counter ≤ p.rollover →
      ∀ q, p.increment_counter = some q →
        1 ≤ q.counter ∧ q.counter ≤ q.rollover) := by
  refine ⟨?_, ?_, ?_⟩
  · intro h1 h2
    unfold Pink.increment_counter
    rw [if_pos ⟨by omega, by omega⟩, hr, land_two_pow_sub_one,
      Nat.mod_eq_of_lt (by rw [← hr]; omega)]
  · intro h
    have h0 : 0 < p.counter := by rw [h, hr]; positivity
    unfold Pink.increment_counter
    rw [if_pos ⟨h0, le_of_eq h⟩, h, hr, land_two_pow_sub_one, Nat.mod_self]
  · intro h1 h2 q hq
    unfold Pink.increment_counter at hq
    rw [if_pos ⟨by omega, h2⟩, hr, land_two_pow_sub_one] at hq
    have hq' : _ = q := Option.some_injective _ hq
    subst hq'
    have hmod : p.counter % 2 ^ (GENERATORS - 1) < 2 ^ (GENERATORS - 1) :=
      Nat.mod_lt _ (by positivity)
    constructor
    · show 1 ≤ p.counter % 2 ^ (GENERATORS - 1) + 1
      omega
    · show p.counter % 2 ^ (GENERATORS - 1) + 1 ≤ 2 ^ (GENERATORS - 1)
      omega

/-- Witness for C7 at the freshly constructed state (counter 1). -/
theorem C7_increment_wraps_witness :
    Pink.new.rollover = 2 ^ (GENERATORS - 1) ∧
    (1 ≤ Pink.new.counter ∧ Pink.new.counter < Pink.new.rollover ∧
      Pink.new.increment_counter = some { Pink.new with counter := Pink.new.counter + 1 }) :=
  ⟨rfl, le_refl 1, by decide,
   (C7_increment_wraps Pink.new rfl).1 (le_refl 1) (by decide)⟩

/-- C8: the selected-index sequence is fully deterministic and independent of
the random source: two runs of the same length from states agreeing on
counter, generators and rollover, driven by arbitrarily different draw
streams, select the same index at every step. -/
theorem C8_index_determinism (p q : Pink) (us vs : ℕ → ℚ × ℚ)
    (hc : p.counter = q.counter) (hg : p.generators = q.generators)
    (hr : p.rollover = q.rollover) (n : ℕ) :
    (Pink.run p us n).bind Pink.get_noise_index
      = (Pink.run q vs n).bind Pink.get_noise_index := by
  have hctrl : ctrlOf p = ctrlOf q := by simp [ctrlOf, hc, hg, hr]
  have h := run_ctrl hctrl us vs n
  cases hp : Pink.run p us n with
  | none =>
    cases hq : Pink.run q vs n with
    | none => rfl
    | some q' => rw [hp, hq] at h; simp at h
  | some p' =>
    cases hq : Pink.run q vs n with
    | none => rw [hp, hq] at h; simp at h
    | some q' =>
      rw [hp, hq] at h
      simp only [Option.map_some'] at h
      show p'.get_noise_index = q'.get_noise_index
      exact gni_ctrl (Option.some_injective _ h)

/-- Witness for C8: one step from the fresh state under two different draw
streams. -/
theorem C8_index_determinism_witness :
    Pink.new.counter = Pink.new.counter ∧
    (Pink.run Pink.new zeroDraws 1).bind Pink.get_noise_index
      = (Pink.run Pink.new (fun _ => (1 / 2, 1 / 2)) 1).bind Pink.get_noise_index :=
  ⟨rfl, C8_index_determinism Pink.new Pink.new zeroDraws (fun _ => (1 / 2, 1 / 2))
    rfl rfl rfl 1⟩

/-- C9: each successful `update` call refreshes exactly the selected generator
(the one at index `trailing_zeros counter`) plus the white companion: every
other generator is unchanged, and the `generators` and `rollover` fields are
unchanged. -/
theorem C9_frame (p : Pink) (u1 u2 : ℚ) (q : Pink) (v : ℚ)
    (h : p.update u1 u2 = some (q, v)) :
    (∃ hlt : trailingZeros p.counter < GENERATORS,
      q.noise ⟨trailingZeros p.counter, hlt⟩ = { value := u1 * 2 - 1 } ∧
      ∀ j : Fin GENERATORS, (j : ℕ) ≠ trailingZeros p.counter →
        q.noise j = p.noise j) ∧
    q.white = { value := u2 * 2 - 1 } ∧
    q.generators = p.generators ∧ q.rollover = p.rollover := by
  by_cases hb : 0 < p.counter ∧ p.counter ≤ p.rollover
  · by_cases hi : trailingZeros p.counter < p.generators ∧
        trailingZeros p.counter < GENERATORS
    · have heq := update_eq_some p u1 u2 hb.1 hb.2 hi.1 hi.2
      rw [heq] at h
      have h' := Option.some_injective _ h
      have hq : _ = q := congrArg Prod.fst h'
      refine ⟨⟨hi.2, ?_, ?_⟩, ?_, ?_, ?_⟩
      · rw [← hq]
        exact Function.update_same _ _ _
      · intro j hj
        rw [← hq]
        show Function.update p.noise ⟨trailingZeros p.counter, hi.2⟩
          { value := u1 * 2 - 1 } j = p.noise j
        apply Function.update_noteq
        intro hji
        apply hj
        rw [hji]
      · rw [← hq]
      · rw [← hq]
      · rw [← hq]
    · rw [update_eq_none p u1 u2 (Or.inr hi)] at h
      exact absurd h (by simp)
  · rw [update_eq_none p u1 u2 (Or.inl hb)] at h
    exact absurd h (by simp)

/-- Witness for C9: the first update from the fresh state. -/
theorem C9_frame_witness :
    ∃ q v, Pink.new.update 0 0 = some (q, v) ∧
      q.generators = Pink.new.generators ∧ q.rollover = Pink.new.rollover := by
  have heq := update_eq_some Pink.new 0 0 (by decide) (by decide) (by decide) (by decide)
  exact ⟨_, _, heq, (C9_frame Pink.new 0 0 _ _ heq).2.2.1,
    (C9_frame Pink.new 0 0 _ _ heq).2.2.2⟩

/-- C10: after `n` updates from the fresh state the counter equals
`n % 16384 + 1`; consequently the index-selection schedule is periodic with
period `rollover = 16384`, and no smaller positive period exists. -/
theorem C10_counter_period (us : ℕ → ℚ × ℚ) :
    (∀ n, ∃ p, Pink.run Pink.new us n = some p ∧
      p.counter = n % 2 ^ (GENERATORS - 1) + 1) ∧
    (∀ n, idxAt us (n + 2 ^ (GENERATORS - 1)) = idxAt us n) ∧
    (∀ d, 0 < d → d < 2 ^ (GENERATORS - 1) →
      ∃ n, idxAt us (n + d) ≠ idxAt us n) := by
  refine ⟨?_, ?_, ?_⟩
  · intro n
    obtain ⟨p, hrun, _, _, hc, _⟩ := run_inv us n
    exact ⟨p, hrun, hc⟩
  · intro n
    rw [idxAt_eq, idxAt_eq, Nat.add_mod_right]
  · intro d hd0 hd1
    refine ⟨2 ^ (GENERATORS - 1) - 1, ?_⟩
    rw [idxAt_eq, idxAt_eq]
    have hP : (2 : ℕ) ^ (GENERATORS - 1) = 16384 := by norm_num [GENERATORS]
    rw [hP] at hd1 ⊢
    rw [show (16384 - 1 + d) % 16384 = d - 1 by omega,
      show (16384 - 1) % 16384 = 16383 by norm_num,
      show d - 1 + 1 = d by omega]
    have htz14 : trailingZeros (16383 + 1) = 14 := by
      rw [show (16383 + 1 : ℕ) = 2 ^ 14 * (2 * 0 + 1) by norm_num]
      exact trailingZeros_pow_mul_odd (by norm_num)
    intro hcontra
    have h3 : trailingZeros d = trailingZeros (16383 + 1) :=
      Option.some_injective _ hcontra
    rw [htz14] at h3
    have h4 := (trailingZeros_eq_iff (by omega : 0 < d)
      (lt_trans hd1 (by norm_num : (16384 : ℕ) < 2 ^ 32))).mp h3
    have h6 : 2 ^ 14 ≤ d := Nat.le_of_dvd (by omega) h4.1
    norm_num at h6
    omega

/-- Witness for C10: period-1 shifts change the schedule. -/
theorem C10_counter_period_witness :
    0 < 1 ∧ 1 < 2 ^ (GENERATORS - 1) ∧
    ∃ n, idxAt zeroDraws (n + 1) ≠ idxAt zeroDraws n :=
  ⟨Nat.one_pos, by norm_num [GENERATORS],
   (C10_counter_period zeroDraws).2.2 1 Nat.one_pos (by norm_num [GENERATORS])⟩
